import Mathlib

/-!
Verification of `github.com/knightso/json-partial-streaming`, package `writer`
(file `writer.go`), against its natural-language specification.

Shallow embedding conventions:

* A byte stream is a `List Nat` (each element is one byte of the stream).
* The underlying sink (`Writer.w`, an `io.Writer`) is modelled by `UW`: the
  bytes written so far plus an optional capacity after which every write
  fails, which models an `io.Writer` that performs a partial write and then
  returns an error.  A sink with `failAfter = none` never fails.
* `ValueFunc` (`func(w io.Writer) error`) is modelled as a function from the
  sink state to a new sink state and an optional error.  `ArrayValueFunc`
  (`func(w ElementWriter) error`) likewise receives the element writer's
  `following` flag and the sink.
* `json.Marshal` of an element passed to `WriteElement` is external to the
  repository; elements are therefore represented directly by their
  serialized bytes.
* `json.Marshal` of a Go string (used by `Value.MarshalJSON`) and
  `json.Unmarshal` of a JSON string literal (used by `Writer.Write`) are
  Go standard library collaborators; they are modelled byte-exactly by
  `goJsonEncodeString` (keys as lists of Unicode scalar values, with the
  HTML escaping that `json.Marshal` applies by default) and
  `jsonDecodeString` (including `\uXXXX` escapes and surrogate pairs).

Every definition mirrors the corresponding Go source construct; the Go
source line is noted next to each definition.
-/

/-- Errors surfaced by the package: `ErrDuplicateKey` (writer.go:14), the
`unexpected key` error of `streamValue` (writer.go:210), a `json.Unmarshal`
failure on the buffered literal (writer.go:171), an underlying sink write
failure, and arbitrary errors returned by producer callbacks. -/
inductive WErr where
  | duplicateKey
  | unknownKey (key : List Nat)
  | decodeFail
  | sinkErr
  | producerFail (code : Nat)
deriving DecidableEq, Repr

/-- State of the underlying sink (`Writer.w`): bytes already written, plus
an optional capacity.  With `failAfter = some cap` any write that would
exceed `cap` total bytes writes only up to the capacity and reports an
error, modelling a failing `io.Writer`; `failAfter = none` is a reliable
sink. -/
structure UW where
  written : List Nat
  failAfter : Option Nat
deriving DecidableEq, Repr

/-- Result of one write against the underlying sink: new sink state, the
count the sink reported, and whether it returned an error. -/
structure URes where
  u : UW
  cnt : Nat
  fail : Bool
deriving DecidableEq, Repr

/-- One call `u.Write(chunk)` on the underlying sink. -/
def uwrite (u : UW) (chunk : List Nat) : URes :=
  match u.failAfter with
  | none => ⟨⟨u.written ++ chunk, none⟩, chunk.length, false⟩
  | some cap =>
    if u.written.length + chunk.length ≤ cap then
      ⟨⟨u.written ++ chunk, some cap⟩, chunk.length, false⟩
    else
      ⟨⟨u.written ++ chunk.take (cap - u.written.length), some cap⟩,
        cap - u.written.length, true⟩

/-- The producer stored in a `Value` (`Value.f`, writer.go:57): either a
`ValueFunc` (writer.go:30) or an `ArrayValueFunc` (writer.go:39).  The Go
source stores it as `interface{}` and dispatches by a type switch
(writer.go:213); the two possible dynamic types form this tagged union. -/
inductive ProducerF where
  | valueFunc (f : UW → UW × Option WErr)
  | arrayValueFunc (f : Bool → UW → Bool × UW × Option WErr)

/-- `Value` (writer.go:55): a registered placeholder, holding its key and
its producer callback. -/
structure ValueT where
  key : List Nat
  f : ProducerF

/-- The registration map `Writer.m` (writer.go:44), `map[string]*Value`,
as an association list keyed by the key's bytes (keys are unique by
construction, so first-match lookup agrees with Go map lookup). -/
abbrev Registry := List (List Nat × ValueT)

/-- Go map read `w.m[key]` (writer.go:208). -/
def lookupKey : Registry → List Nat → Option ValueT
  | [], _ => none
  | (k, v) :: t, key => if k = key then some v else lookupKey t key

/-- `Writer.newValue` (writer.go:96-112): fails with `ErrDuplicateKey` when
the key is already present, otherwise inserts `&Value{key, f}` and returns
it.  Result: the new registry, the returned `*Value`, and the error. -/
def newValue (m : Registry) (key : List Nat) (f : ProducerF) :
    Registry × Option ValueT × Option WErr :=
  if (lookupKey m key).isSome then (m, none, some .duplicateKey)
  else ((key, ⟨key, f⟩) :: m, some ⟨key, f⟩, none)

/-- `elementWriter.WriteElement` (writer.go:242-263).  `following` is the
`elementWriter.following` field; `e` is the element's `json.Marshal`
serialization (marshalling itself is external to the repository).  Returns
the new `following` flag, the sink, and the error. -/
def writeElement (following : Bool) (u : UW) (e : List Nat) :
    Bool × UW × Option WErr :=
  if following then
    let r := uwrite u [44]
    if r.fail then (true, r.u, some .sinkErr)
    else
      let r2 := uwrite r.u e
      if r2.fail then (true, r2.u, some .sinkErr) else (true, r2.u, none)
  else
    let r2 := uwrite u e
    if r2.fail then (true, r2.u, some .sinkErr) else (true, r2.u, none)

/-- The canonical `ArrayValueFunc` body: call `WriteElement` once per
element of `elems`, stopping at the first error — exactly the loop the
package's own test uses (`writer_test.go`, `NumberArrayValues`). -/
def emitAll (elems : List (List Nat)) (following : Bool) (u : UW) :
    Bool × UW × Option WErr :=
  match elems with
  | [] => (following, u, none)
  | e :: t =>
    let r := writeElement following u e
    match r.2.2 with
    | some err => (r.1, r.2.1, some err)
    | none => emitAll t r.1 r.2.1

/-- The bytes a JSON array body holds for elements `e0..en` joined by
single commas (no brackets): `e0 , e1 , ... , en`. -/
def joinComma : List (List Nat) → List Nat
  | [] => []
  | e :: t => e ++ t.flatMap (fun x => 44 :: x)

/-- `streamPrefix` (writer.go:17): the Go string `\🎏` — a backslash byte
followed by the UTF-8 bytes of U+1F38F. -/
def streamPrefixBytes : List Nat := [92, 240, 159, 142, 143]

/-- `streamJSONPrefix` (writer.go:18): the Go string of a double quote,
two backslashes and the UTF-8 bytes of U+1F38F — the first seven bytes of
any marker string literal on the wire. -/
def streamJSONPrefixBytes : List Nat := [34, 92, 92, 240, 159, 142, 143]

/-- `strings.HasPrefix` (writer.go:143) on byte lists: `hasPfx pat l` is
true when `pat` is an initial segment of `l`. -/
def hasPfx : List Nat → List Nat → Bool
  | [], _ => true
  | _ :: _, [] => false
  | a :: pa, b :: pb => if a = b then hasPfx pa pb else false

/-- A Unicode scalar value, i.e. a rune a valid Go string can contain
(not a surrogate, below U+110000). -/
def ValidRune (c : Nat) : Prop := c < 55296 ∨ (57344 ≤ c ∧ c < 1114112)

instance : DecidablePred ValidRune := fun _ => by
  unfold ValidRune; infer_instance

/-- UTF-8 encoding of one Unicode scalar value. -/
def utf8encodeChar (c : Nat) : List Nat :=
  if c < 128 then [c]
  else if c < 2048 then [192 + c / 64, 128 + c % 64]
  else if c < 65536 then [224 + c / 4096, 128 + (c / 64) % 64, 128 + c % 64]
  else [240 + c / 262144, 128 + (c / 4096) % 64, 128 + (c / 64) % 64, 128 + c % 64]

/-- UTF-8 encoding of a list of runes: the bytes of the corresponding Go
string. -/
def utf8Bytes (rs : List Nat) : List Nat := rs.flatMap utf8encodeChar

/-- Lowercase hexadecimal digit character for `d < 16`, as used by Go's
`encoding/json` (`"0123456789abcdef"`). -/
def hexDigitChar (d : Nat) : Nat := if d < 10 then 48 + d else 87 + d

/-- How Go's `encoding/json` escapes one rune inside a string literal
(default encoder, HTML escaping on, as `json.Marshal` uses): `"` and `\`
get a backslash escape, `\n`/`\r`/`\t` their short escapes, other control
characters and `<`, `>`, `&` become `\u00XX`, U+2028 and U+2029 become
their six-byte escapes, and everything else is emitted as its raw UTF-8
bytes. -/
def escapeRune (c : Nat) : List Nat :=
  if c = 34 then [92, 34]
  else if c = 92 then [92, 92]
  else if c = 10 then [92, 110]
  else if c = 13 then [92, 114]
  else if c = 9 then [92, 116]
  else if c < 32 then [92, 117, 48, 48, hexDigitChar (c / 16), hexDigitChar (c % 16)]
  else if c = 60 ∨ c = 62 ∨ c = 38 then
    [92, 117, 48, 48, hexDigitChar (c / 16), hexDigitChar (c % 16)]
  else if c = 8232 then [92, 117, 50, 48, 50, 56]
  else if c = 8233 then [92, 117, 50, 48, 50, 57]
  else utf8encodeChar c

/-- `json.Marshal` of a Go string whose runes are `rs`: an opening quote,
each rune escaped per `escapeRune`, a closing quote. -/
def goJsonEncodeString (rs : List Nat) : List Nat :=
  34 :: rs.flatMap escapeRune ++ [34]

/-- `Value.MarshalJSON` (writer.go:266-268): `json.Marshal(streamPrefix +
v.key)`, with the key given as its list of runes.  `streamPrefix` is the
two runes `\` and U+1F38F. -/
def marshalValue (key : List Nat) : List Nat :=
  goJsonEncodeString (92 :: 127887 :: key)

/-- Numeric value of one hexadecimal digit byte, as Go's `getu4`
accepts it (`0-9`, `a-f`, `A-F`). -/
def hexDigit (c : Nat) : Option Nat :=
  if 48 ≤ c ∧ c ≤ 57 then some (c - 48)
  else if 97 ≤ c ∧ c ≤ 102 then some (c - 87)
  else if 65 ≤ c ∧ c ≤ 70 then some (c - 55)
  else none

/-- The numeric value of the four hex digits of a `\uXXXX` escape that
begins the byte list, when the list begins with such an escape (Go's
`getu4` applied at the current position). -/
def low4 : List Nat → Option Nat
  | 92 :: 117 :: g1 :: g2 :: g3 :: g4 :: _ =>
    match hexDigit g1, hexDigit g2, hexDigit g3, hexDigit g4 with
    | some b1, some b2, some b3, some b4 =>
      some (((b1 * 16 + b2) * 16 + b3) * 16 + b4)
    | _, _, _, _ => none
  | _ => none

mutual

/-- Decoding of a JSON string literal body (everything after the opening
quote), mirroring Go `encoding/json` unquoting: bytes pass through until
an unescaped closing quote, which must end the input (the buffered literal
is decoded exactly, nothing may follow it); a backslash starts an escape;
an unescaped control character fails.  Returns the decoded content
bytes. -/
def decodeBody : List Nat → Option (List Nat)
  | [] => none
  | b :: rest =>
    if b = 34 then (if rest = [] then some [] else none)
    else if b = 92 then decodeEsc rest
    else if b < 32 then none
    else (decodeBody rest).map (fun x => b :: x)
termination_by l => 2 * l.length
decreasing_by
all_goals simp only [List.length_cons, List.length_drop]
all_goals omega

/-- Decoding of one escape sequence (the bytes after a backslash): the
short escapes map to their bytes, `\u` hands over to `decodeU`, anything
else is invalid. -/
def decodeEsc : List Nat → Option (List Nat)
  | [] => none
  | c :: t =>
    if c = 34 then (decodeBody t).map (fun x => 34 :: x)
    else if c = 92 then (decodeBody t).map (fun x => 92 :: x)
    else if c = 47 then (decodeBody t).map (fun x => 47 :: x)
    else if c = 98 then (decodeBody t).map (fun x => 8 :: x)
    else if c = 102 then (decodeBody t).map (fun x => 12 :: x)
    else if c = 110 then (decodeBody t).map (fun x => 10 :: x)
    else if c = 114 then (decodeBody t).map (fun x => 13 :: x)
    else if c = 116 then (decodeBody t).map (fun x => 9 :: x)
    else if c = 117 then decodeU t
    else none
termination_by l => 2 * l.length + 1
decreasing_by
all_goals simp only [List.length_cons, List.length_drop]
all_goals omega

/-- Decoding of a `\uXXXX` escape (the bytes after `\u`): four hex digits
give a code point; a non-surrogate is emitted as its UTF-8 bytes; a high
surrogate followed by a low-surrogate escape combines into one code point
consuming both; any lone surrogate is replaced by U+FFFD and decoding
continues after the first escape — exactly Go's `unquote`. -/
def decodeU : List Nat → Option (List Nat)
  | h1 :: h2 :: h3 :: h4 :: t =>
    match hexDigit h1, hexDigit h2, hexDigit h3, hexDigit h4 with
    | some a1, some a2, some a3, some a4 =>
      let cp := ((a1 * 16 + a2) * 16 + a3) * 16 + a4
      if cp < 55296 ∨ 57344 ≤ cp then
        (decodeBody t).map (fun x => utf8encodeChar cp ++ x)
      else if cp < 56320 then
        match low4 t with
        | some lo =>
          if 56320 ≤ lo ∧ lo < 57344 then
            (decodeBody (t.drop 6)).map (fun x =>
              utf8encodeChar (65536 + (cp - 55296) * 1024 + (lo - 56320)) ++ x)
          else (decodeBody t).map (fun x => utf8encodeChar 65533 ++ x)
        | none => (decodeBody t).map (fun x => utf8encodeChar 65533 ++ x)
      else (decodeBody t).map (fun x => utf8encodeChar 65533 ++ x)
    | _, _, _, _ => none
  | _ => none
termination_by l => 2 * l.length
decreasing_by
all_goals simp only [List.length_cons, List.length_drop]
all_goals omega

end

/-- `json.Unmarshal(lit, &s)` for a buffered string literal `lit`
(writer.go:171): the literal must open with a quote; the rest decodes per
`decodeBody`. -/
def jsonDecodeString (bs : List Nat) : Option (List Nat) :=
  match bs with
  | b :: rest => if b = 34 then decodeBody rest else none
  | [] => none

/-- `streamState` (writer.go:21-27): `stateUndetermined`, `stateValue`,
`stateNotValue`. -/
inductive StreamState where
  | undetermined
  | value
  | notValue
deriving DecidableEq, Repr

/-- The `Writer` struct (writer.go:42-52): the registration map, the
scan-state fields `onString`, `escaping`, `streamState` and `stringBuf`.
The underlying sink `Writer.w` is passed separately as a `UW`. -/
structure GoWriter where
  m : Registry
  onString : Bool
  escaping : Bool
  streamState : StreamState
  stringBuf : List Nat

/-- `New` (writer.go:61-66): empty map and zero-valued scan state
(`onString = false`, `escaping = false`, `streamState = stateUndetermined`,
empty buffer), here generalized to any starting registry. -/
def initWriter (m : Registry) : GoWriter :=
  ⟨m, false, false, .undetermined, []⟩

/-- Result of a `Writer.Write` call: the writer's new scan state, the
underlying sink, the returned count `n`, and the returned error. -/
structure WRes where
  wtr : GoWriter
  sink : UW
  cnt : Nat
  err : Option WErr

/-- `Writer.streamValue` (writer.go:206-235): look the key up, then
dispatch on the producer variant; an `ArrayValueFunc` is wrapped in
`[` and `]` written by the dispatcher and receives a fresh element
writer (`following = false`) bound to the underlying sink. -/
def streamValue (m : Registry) (u : UW) (key : List Nat) : UW × Option WErr :=
  match lookupKey m key with
  | none => (u, some (.unknownKey key))
  | some v =>
    match v.f with
    | .valueFunc f => f u
    | .arrayValueFunc f =>
      let r1 := uwrite u [91]
      if r1.fail then (r1.u, some .sinkErr)
      else
        let r2 := f false r1.u
        match r2.2.2 with
        | some e => (r2.2.1, some e)
        | none =>
          let r3 := uwrite r2.2.1 [93]
          if r3.fail then (r3.u, some .sinkErr) else (r3.u, none)

/-- The escape/close tracking at the top of the string branch of
`Writer.Write` (writer.go:124-131): a pending escape consumes this byte;
otherwise a backslash starts an escape and an unescaped quote ends the
string. -/
def escUpdate (w : GoWriter) (b : Nat) : GoWriter :=
  if w.escaping then { w with escaping := false }
  else if b = 92 then { w with escaping := true }
  else if b = 34 then { w with onString := false }
  else w

/-- The `if !w.onString` block of `Writer.Write` (writer.go:159-180): when
the string just closed, a still-`Undetermined` buffer is flushed, and a
`Value` buffer is decoded (`json.Unmarshal`), stripped of `streamPrefix`
and dispatched via `streamValue`.  `dn` is the count accumulated earlier in
this iteration. -/
def finishString (w : GoWriter) (u : UW) (dn : Nat) : WRes :=
  if w.onString then ⟨w, u, dn, none⟩
  else if w.streamState = .undetermined then
    let r := uwrite u w.stringBuf
    ⟨w, r.u, dn + r.cnt, if r.fail then some .sinkErr else none⟩
  else if w.streamState = .value then
    match jsonDecodeString w.stringBuf with
    | none => ⟨w, u, dn, some .decodeFail⟩
    | some s =>
      let r := streamValue w.m u (s.drop streamPrefixBytes.length)
      ⟨w, r.1, dn, r.2⟩
  else ⟨w, u, dn, none⟩

/-- One iteration of the `for _, b := range p` loop of `Writer.Write`
(writer.go:123-201), processing the single byte `b`: inside a string the
escape state is updated, then the byte is either written live
(`stateNotValue`, count discarded) or buffered, a buffer that reaches the
length of `streamJSONPrefix` is classified by prefix comparison (flushing
on mismatch), and a closing quote finishes the string; outside a string a
quote resets the buffer and enters the string, any other byte is passed
through with `n` incremented. -/
def writeByte (w0 : GoWriter) (u : UW) (b : Nat) : WRes :=
  if w0.onString then
    let w := escUpdate w0 b
    if w.streamState = .notValue then
      let r := uwrite u [b]
      if r.fail then ⟨w, r.u, 0, some .sinkErr⟩
      else finishString w r.u 0
    else
      let w1 := { w with stringBuf := w.stringBuf ++ [b] }
      if w1.streamState = .undetermined then
        if streamJSONPrefixBytes.length ≤ w1.stringBuf.length then
          if hasPfx streamJSONPrefixBytes w1.stringBuf then
            finishString { w1 with streamState := .value } u 0
          else
            let w2 := { w1 with streamState := .notValue }
            let r := uwrite u w2.stringBuf
            if r.fail then ⟨w2, r.u, r.cnt, some .sinkErr⟩
            else finishString w2 r.u r.cnt
        else finishString w1 u 0
      else finishString w1 u 0
  else
    if b = 34 then
      ⟨{ w0 with onString := true, escaping := false,
                 streamState := .undetermined, stringBuf := [34] }, u, 0, none⟩
    else
      let r := uwrite u [b]
      if r.fail then ⟨w0, r.u, 0, some .sinkErr⟩
      else ⟨w0, r.u, 1, none⟩

/-- `Writer.Write` (writer.go:122-204) on the byte list `p`: iterate
`writeByte`, stopping at (and returning) the first error, accumulating the
returned count `n`. -/
def writeGo (w : GoWriter) (u : UW) : List Nat → WRes
  | [] => ⟨w, u, 0, none⟩
  | b :: t =>
    let r := writeByte w u b
    match r.err with
    | some e => ⟨r.wtr, r.sink, r.cnt, some e⟩
    | none =>
      let r2 := writeGo r.wtr r.sink t
      ⟨r2.wtr, r2.sink, r.cnt + r2.cnt, r2.err⟩

/-- A sequence of `Writer.Write` calls, one per chunk, carrying the writer
state and the sink from call to call and stopping at the first error —
how `json.Encoder.Encode` feeds the interceptor. -/
def writeChunks (w : GoWriter) (u : UW) : List (List Nat) → WRes
  | [] => ⟨w, u, 0, none⟩
  | c :: cs =>
    let r := writeGo w u c
    match r.err with
    | some e => ⟨r.wtr, r.sink, r.cnt, some e⟩
    | none =>
      let r2 := writeChunks r.wtr r.sink cs
      ⟨r2.wtr, r2.sink, r.cnt + r2.cnt, r2.err⟩

/-- Specification-side tokenizer mode for classifying an input byte
sequence: outside any string literal, inside a literal still shorter than
the escaped marker head (carrying the bytes so far and the escape
flag), or inside a literal already known not to be a marker. -/
inductive PMode where
  | out
  | undet (buf : List Nat) (esc : Bool)
  | live (esc : Bool)
deriving DecidableEq, Repr

/-- One byte of the specification-side tokenizer.  It mirrors the string
grammar only: quotes open strings, a backslash escapes exactly the next
byte, an unescaped quote closes the string.  A literal whose first
`streamJSONPrefix`-many bytes equal the escaped marker head is rejected
(`none`): such an input contains a marker literal. -/
def plainStep (m : PMode) (b : Nat) : Option PMode :=
  match m with
  | .out => if b = 34 then some (.undet [34] false) else some .out
  | .undet buf esc =>
    let buf1 := buf ++ [b]
    let esc1 := if esc then false else if b = 92 then true else false
    if streamJSONPrefixBytes.length ≤ buf1.length then
      if hasPfx streamJSONPrefixBytes buf1 then none
      else if esc = false ∧ b = 34 then some .out
      else some (.live esc1)
    else if esc = false ∧ b = 34 then some .out
    else some (.undet buf1 esc1)
  | .live esc =>
    if esc = false ∧ b = 34 then some .out
    else some (.live (if esc then false else if b = 92 then true else false))

/-- Run of the specification-side tokenizer. -/
def plainRun : PMode → List Nat → Option PMode
  | m, [] => some m
  | m, b :: t =>
    match plainStep m b with
    | none => none
    | some m1 => plainRun m1 t

/-- A complete, marker-free input: every string literal in `p` is closed
and none of them begins with the escaped reserved head. -/
def ScanPlain (p : List Nat) : Prop := plainRun .out p = some .out

instance : DecidablePred ScanPlain := fun _ => by
  unfold ScanPlain; infer_instance

/-- Bytes of the current literal the tokenizer has consumed but the
interceptor has not yet forwarded (its accumulation buffer). -/
def pending : PMode → List Nat
  | .out => []
  | .undet buf _ => buf
  | .live _ => []

/-- Correspondence between the interceptor's scan state and the
specification-side tokenizer mode. -/
def InvWM (w : GoWriter) (m : PMode) : Prop :=
  match m with
  | .out => w.onString = false
  | .undet buf esc =>
    w.onString = true ∧ w.escaping = esc ∧ w.streamState = .undetermined ∧
      w.stringBuf = buf ∧ buf.length < streamJSONPrefixBytes.length
  | .live esc =>
    w.onString = true ∧ w.escaping = esc ∧ w.streamState = .notValue

/-- Escape-neutral byte runs: consuming `bs` inside a string starting with
escape flag `e` never reaches an unescaped quote and ends with escape flag
`e1`. -/
def neutralScan : Bool → List Nat → Option Bool
  | e, [] => some e
  | true, _ :: t => neutralScan false t
  | false, b :: t =>
    if b = 92 then neutralScan true t
    else if b = 34 then none
    else neutralScan false t

/-- `b` extends `a`: the sink's content only ever grows. -/
def WrittenExt (a b : List Nat) : Prop := ∃ t, b = a ++ t

/-- A producer callback that only appends to the sink (never rewrites or
truncates what an `io.Writer` has already received — every real
`io.Writer` callback is of this shape). -/
def ProdMono : ProducerF → Prop
  | .valueFunc f => ∀ u : UW, WrittenExt u.written ((f u).1).written
  | .arrayValueFunc f =>
    ∀ (fol : Bool) (u : UW), WrittenExt u.written ((f fol u).2.1).written

/-- Every producer registered in `m` only appends to the sink. -/
def RegMono (m : Registry) : Prop := ∀ kv ∈ m, ProdMono kv.2.f

/-- `writeGo` splits over list append: processing `p ++ q` is processing
`p`, then — unless `p` already returned an error, which ends the call —
processing `q` from the resulting state, with the counts added. -/
theorem writeGo_append (p q : List Nat) (w : GoWriter) (u : UW) :
    writeGo w u (p ++ q) =
      (match writeGo w u p with
       | ⟨w1, u1, n1, some e⟩ => ⟨w1, u1, n1, some e⟩
       | ⟨w1, u1, n1, none⟩ =>
         let r2 := writeGo w1 u1 q
         ⟨r2.wtr, r2.sink, n1 + r2.cnt, r2.err⟩) := by
  induction p generalizing w u with
  | nil =>
    simp only [List.nil_append, writeGo]
    simp
  | cons b t ih =>
    simp only [List.cons_append, writeGo]
    cases hb : (writeByte w u b).err with
    | some e => simp
    | none =>
      simp only [List.append_eq]
      rw [ih]
      cases ht : writeGo (writeByte w u b).wtr (writeByte w u b).sink t with
      | mk w1 u1 n1 e1 =>
        cases e1 with
        | some e => simp
        | none => simp [Nat.add_assoc]

/-- C4: Splitting a byte sequence into consecutive chunks and feeding them
through successive `Write` calls produces exactly the same result — the
same bytes at the sink, the same final scan state, the same total count
and the same error — as one `Write` call with the unsplit concatenation:
the interceptor's state persists across calls. -/
theorem write_chunks_eq_unsplit (cs : List (List Nat)) (w : GoWriter) (u : UW) :
    writeChunks w u cs = writeGo w u cs.flatten := by
  induction cs generalizing w u with
  | nil => simp [writeChunks, writeGo]
  | cons c cs ih =>
    simp only [writeChunks, List.flatten_cons]
    rw [writeGo_append]
    cases hr : writeGo w u c with
    | mk w1 u1 n1 e1 =>
      cases e1 with
      | some e => simp
      | none => simp [ih]

/-- C10: A successful `Write` can return a count strictly below the input
length.  On the ten-byte input `"abcdefgh"` (a quoted eight-letter string)
the call succeeds, forwards all ten bytes to the sink, yet returns `n = 7`:
only the seven-byte classification flush is counted, while the three bytes
written live in the not-a-marker state are not, so `Write` does not satisfy
the usual `io.Writer` contract that `n = len(p)` on success. -/
theorem write_returns_partial_count :
    (writeGo (initWriter []) ⟨[], none⟩
        [34, 97, 98, 99, 100, 101, 102, 103, 104, 34]).cnt = 7
    ∧ (writeGo (initWriter []) ⟨[], none⟩
        [34, 97, 98, 99, 100, 101, 102, 103, 104, 34]).cnt
        < ([34, 97, 98, 99, 100, 101, 102, 103, 104, 34] : List Nat).length
    ∧ (writeGo (initWriter []) ⟨[], none⟩
        [34, 97, 98, 99, 100, 101, 102, 103, 104, 34]).err = none
    ∧ (writeGo (initWriter []) ⟨[], none⟩
        [34, 97, 98, 99, 100, 101, 102, 103, 104, 34]).sink.written
        = [34, 97, 98, 99, 100, 101, 102, 103, 104, 34] := by
  refine ⟨?_, ?_, ?_, ?_⟩ <;> decide

/-- C8: Registration fails with the duplicate-key error exactly when the
key is already present; on that failure nothing changes (the registry —
including the existing entry for the key — is returned untouched and no
placeholder is produced); otherwise the pair is inserted, is found by
lookup, every other key's lookup is unaffected, and the returned
placeholder carries the key.  The statement quantifies over all keys, the
empty key included. -/
theorem register_duplicate_guard (m : Registry) (key : List Nat) (f : ProducerF) :
    ((newValue m key f).2.2 = some .duplicateKey ↔ (lookupKey m key).isSome = true)
    ∧ ((lookupKey m key).isSome = true → newValue m key f = (m, none, some .duplicateKey))
    ∧ (lookupKey m key = none →
        (newValue m key f).2.2 = none
        ∧ (newValue m key f).2.1 = some ⟨key, f⟩
        ∧ lookupKey (newValue m key f).1 key = some ⟨key, f⟩
        ∧ ∀ k, k ≠ key → lookupKey (newValue m key f).1 k = lookupKey m k) := by
  by_cases h : (lookupKey m key).isSome
  · refine ⟨⟨fun _ => h, fun _ => by simp [newValue, h]⟩,
      fun _ => by simp [newValue, h], fun hn => ?_⟩
    rw [hn] at h
    simp at h
  · refine ⟨⟨fun hc => ?_, fun hs => absurd hs h⟩, fun hs => absurd hs h, fun _ => ?_⟩
    · simp [newValue, h] at hc
    · refine ⟨by simp [newValue, h], by simp [newValue, h], by simp [newValue, h, lookupKey], ?_⟩
      intro k hk
      have hne : key ≠ k := fun he => hk he.symm
      simp [newValue, h, lookupKey, hne]

/-- Witness for C8 at a concrete registry: registering the empty-string key
next to an existing key `"a"` succeeds (the empty key is a valid key
distinct from `"a"`), and re-registering `"a"` fails with the duplicate-key
error leaving the registry unchanged. -/
theorem register_duplicate_guard_witness :
    (newValue [([97], ⟨[97], .valueFunc fun u => (u, none)⟩)] []
        (.valueFunc fun u => (u, none))).2.2 = none
    ∧ (newValue [([97], ⟨[97], .valueFunc fun u => (u, none)⟩)] [97]
        (.valueFunc fun u => (u, none))).2.2 = some .duplicateKey := by
  constructor
  · exact ((register_duplicate_guard [([97], ⟨[97], .valueFunc fun u => (u, none)⟩)] []
      (.valueFunc fun u => (u, none))).2.2 (by rfl)).1
  · exact (register_duplicate_guard [([97], ⟨[97], .valueFunc fun u => (u, none)⟩)] [97]
      (.valueFunc fun u => (u, none))).1.2 (by rfl)

/-- One byte of the simulation: if the specification-side tokenizer accepts
byte `b`, the interceptor (over a reliable sink) takes the corresponding
step — no error, registry untouched, and the sink content plus the
still-buffered bytes together extend exactly by `b`. -/
theorem step_sim (mp mp1 : PMode) (b : Nat) (w : GoWriter) (ws : List Nat)
    (hs : plainStep mp b = some mp1) (hi : InvWM w mp) :
    InvWM (writeByte w ⟨ws, none⟩ b).wtr mp1
    ∧ (writeByte w ⟨ws, none⟩ b).sink.written ++ pending mp1 = ws ++ pending mp ++ [b]
    ∧ (writeByte w ⟨ws, none⟩ b).sink.failAfter = none
    ∧ (writeByte w ⟨ws, none⟩ b).err = none
    ∧ (writeByte w ⟨ws, none⟩ b).wtr.m = w.m := by
  obtain ⟨mw, os, ef, ss, sb⟩ := w
  cases mp with
  | out =>
    have hos : os = false := hi
    subst hos
    by_cases hb : b = 34
    · subst hb
      simp only [plainStep, if_pos rfl] at hs
      cases hs
      simp [writeByte, InvWM, pending, streamJSONPrefixBytes]
    · simp only [plainStep, if_neg hb] at hs
      cases hs
      simp [writeByte, hb, InvWM, pending, uwrite]
  | undet buf esc =>
    obtain ⟨hos, hesc, hss, hbuf, hlen⟩ := hi
    simp only at hos hesc hss hbuf
    subst hos hesc hss hbuf
    simp only [plainStep] at hs
    by_cases h7 : streamJSONPrefixBytes.length ≤ sb.length + 1
    all_goals simp only [List.length_append, List.length_singleton] at hs
    · rw [if_pos h7] at hs
      by_cases hpf : hasPfx streamJSONPrefixBytes (sb ++ [b]) = true
      · rw [if_pos hpf] at hs; cases hs
      · rw [if_neg hpf] at hs
        cases ef with
        | true =>
          simp only [Bool.true_eq_false, false_and, if_false] at hs
          cases hs
          simp [writeByte, escUpdate, finishString, uwrite, h7, hpf, InvWM, pending]
        | false =>
          by_cases hb34 : b = 34
          · subst hb34
            simp only [and_self, if_true, if_pos] at hs
            cases hs
            simp [writeByte, escUpdate, finishString, uwrite, h7, hpf, InvWM, pending]
          · by_cases hb92 : b = 92
            · subst hb92
              simp only [hb34, and_false, if_false] at hs
              cases hs
              simp [writeByte, escUpdate, finishString, uwrite, h7, hpf, InvWM, pending]
            · simp only [hb34, and_false, if_false] at hs
              cases hs
              simp [writeByte, escUpdate, finishString, uwrite, h7, hpf, hb34, hb92,
                InvWM, pending]
    · rw [if_neg h7] at hs
      cases ef with
      | true =>
        simp only [Bool.true_eq_false, false_and, if_false] at hs
        cases hs
        simp [writeByte, escUpdate, finishString, uwrite, h7, InvWM, pending]
        omega
      | false =>
        by_cases hb34 : b = 34
        · subst hb34
          simp only [and_self, if_true, if_pos] at hs
          cases hs
          simp [writeByte, escUpdate, finishString, uwrite, h7, InvWM, pending]
        · by_cases hb92 : b = 92
          · subst hb92
            simp only [hb34, and_false, if_false] at hs
            cases hs
            simp [writeByte, escUpdate, finishString, uwrite, h7, InvWM, pending]
            omega
          · simp only [hb34, and_false, if_false] at hs
            cases hs
            simp [writeByte, escUpdate, finishString, uwrite, h7, hb34, hb92, InvWM, pending]
            omega
  | live esc =>
    obtain ⟨hos, hesc, hss⟩ := hi
    simp only at hos hesc hss
    subst hos hesc hss
    simp only [plainStep] at hs
    cases ef with
    | true =>
      simp only [Bool.true_eq_false, false_and, if_false] at hs
      cases hs
      simp [writeByte, escUpdate, finishString, uwrite, InvWM, pending]
    | false =>
      by_cases hb34 : b = 34
      · subst hb34
        simp only [and_self, if_true, if_pos] at hs
        cases hs
        simp [writeByte, escUpdate, finishString, uwrite, InvWM, pending]
      · by_cases hb92 : b = 92
        · subst hb92
          simp only [hb34, and_false, if_false] at hs
          cases hs
          simp [writeByte, escUpdate, finishString, uwrite, InvWM, pending]
        · simp only [hb34, and_false, if_false] at hs
          cases hs
          simp [writeByte, escUpdate, finishString, uwrite, hb34, hb92, InvWM, pending]

/-- Run of the simulation over a whole byte list: on a tokenizer-accepted
input over a reliable sink the interceptor reports no error, keeps its
registry, keeps the sink reliable, and sink content plus buffered bytes
grow by exactly the input. -/
theorem plain_sim (p : List Nat) (mp mp1 : PMode) (w : GoWriter) (ws : List Nat)
    (hs : plainRun mp p = some mp1) (hi : InvWM w mp) :
    InvWM (writeGo w ⟨ws, none⟩ p).wtr mp1
    ∧ (writeGo w ⟨ws, none⟩ p).sink.written ++ pending mp1 = ws ++ pending mp ++ p
    ∧ (writeGo w ⟨ws, none⟩ p).sink.failAfter = none
    ∧ (writeGo w ⟨ws, none⟩ p).err = none
    ∧ (writeGo w ⟨ws, none⟩ p).wtr.m = w.m := by
  induction p generalizing mp w ws with
  | nil =>
    simp only [plainRun] at hs
    cases hs
    exact ⟨hi, by simp [writeGo], rfl, rfl, rfl⟩
  | cons b t ih =>
    simp only [plainRun] at hs
    cases hstep : plainStep mp b with
    | none => rw [hstep] at hs; cases hs
    | some m1 =>
      rw [hstep] at hs
      obtain ⟨i1, e1, f1, er1, mm1⟩ := step_sim mp m1 b w ws hstep hi
      have key := ih m1 (writeByte w ⟨ws, none⟩ b).wtr
        (writeByte w ⟨ws, none⟩ b).sink.written hs i1
      have hsink : (⟨(writeByte w ⟨ws, none⟩ b).sink.written, none⟩ : UW)
          = (writeByte w ⟨ws, none⟩ b).sink := by
        conv_rhs => rw [show (writeByte w ⟨ws, none⟩ b).sink
          = ⟨(writeByte w ⟨ws, none⟩ b).sink.written,
             (writeByte w ⟨ws, none⟩ b).sink.failAfter⟩ from rfl]
        rw [f1]
      rw [hsink] at key
      simp only [writeGo, er1]
      refine ⟨key.1, ?_, key.2.2.1, key.2.2.2.1, key.2.2.2.2.trans mm1⟩
      calc (writeGo (writeByte w ⟨ws, none⟩ b).wtr (writeByte w ⟨ws, none⟩ b).sink
              t).sink.written ++ pending mp1
          = (writeByte w ⟨ws, none⟩ b).sink.written ++ pending m1 ++ t := key.2.1
        _ = (ws ++ pending mp ++ [b]) ++ t := by rw [e1]
        _ = ws ++ pending mp ++ (b :: t) := by simp [List.append_assoc]

/-- C3: On any complete input byte sequence none of whose string literals
begins with the escaped reserved head (`ScanPlain`), the interceptor
forwards the input to the sink unchanged and returns no error; in
particular every string literal shorter than the escaped head is flushed
byte for byte when its closing quote arrives. -/
theorem interceptor_passthrough_plain (p : List Nat) (m : Registry) (u : UW)
    (hp : ScanPlain p) (hu : u.failAfter = none) :
    (writeGo (initWriter m) u p).sink.written = u.written ++ p
    ∧ (writeGo (initWriter m) u p).err = none := by
  have hu2 : u = ⟨u.written, none⟩ := by
    conv_lhs => rw [show u = ⟨u.written, u.failAfter⟩ from rfl]
    rw [hu]
  rw [hu2]
  obtain ⟨_, e1, _, er1, _⟩ :=
    plain_sim p .out .out (initWriter m) u.written hp rfl
  exact ⟨by simpa [pending] using e1, er1⟩

/-- Witness for C3: the ten-byte input for `{"a":"ab"}` — literals `"a"`
and `"ab"` are both shorter than the seven-byte escaped head — passes
through unchanged. -/
theorem interceptor_passthrough_plain_witness :
    ScanPlain [123, 34, 97, 34, 58, 34, 97, 98, 34, 125]
    ∧ (writeGo (initWriter []) ⟨[], none⟩
        [123, 34, 97, 34, 58, 34, 97, 98, 34, 125]).sink.written
      = [] ++ [123, 34, 97, 34, 58, 34, 97, 98, 34, 125]
    ∧ (writeGo (initWriter []) ⟨[], none⟩
        [123, 34, 97, 34, 58, 34, 97, 98, 34, 125]).err = none := by
  refine ⟨by decide, ?_, ?_⟩
  · exact (interceptor_passthrough_plain [123, 34, 97, 34, 58, 34, 97, 98, 34, 125]
      [] ⟨[], none⟩ (by decide) rfl).1
  · exact (interceptor_passthrough_plain [123, 34, 97, 34, 58, 34, 97, 98, 34, 125]
      [] ⟨[], none⟩ (by decide) rfl).2

/-- A byte that is neither a backslash nor a quote leaves the escape state
untouched. -/
lemma neutralScan_cons_other (b : Nat) (hb92 : b ≠ 92) (hb34 : b ≠ 34) (t : List Nat) :
    neutralScan false (b :: t) = neutralScan false t := by
  simp [neutralScan, hb92, hb34]

/-- A backslash escapes exactly the following byte, whatever it is. -/
lemma neutralScan_escPair (b : Nat) (t : List Nat) :
    neutralScan false (92 :: b :: t) = neutralScan false t := by
  simp [neutralScan]

/-- The encoder's hexadecimal digit characters are never a backslash or a
quote. -/
lemma hexDigitChar_ne (d : Nat) : hexDigitChar d ≠ 92 ∧ hexDigitChar d ≠ 34 := by
  unfold hexDigitChar
  split <;> omega

/-- Raw UTF-8 bytes of a rune other than backslash and quote are
escape-neutral. -/
lemma neutralScan_utf8 (c : Nat) (hc92 : c ≠ 92) (hc34 : c ≠ 34) (t : List Nat) :
    neutralScan false (utf8encodeChar c ++ t) = neutralScan false t := by
  unfold utf8encodeChar
  by_cases h1 : c < 128
  · rw [if_pos h1]
    exact neutralScan_cons_other c hc92 hc34 t
  · rw [if_neg h1]
    by_cases h2 : c < 2048
    · rw [if_pos h2]
      rw [List.cons_append, List.cons_append, List.nil_append]
      rw [neutralScan_cons_other _ (by omega) (by omega)]
      exact neutralScan_cons_other _ (by omega) (by omega) t
    · rw [if_neg h2]
      by_cases h3 : c < 65536
      · rw [if_pos h3]
        rw [List.cons_append, List.cons_append, List.cons_append, List.nil_append]
        rw [neutralScan_cons_other _ (by omega) (by omega)]
        rw [neutralScan_cons_other _ (by omega) (by omega)]
        exact neutralScan_cons_other _ (by omega) (by omega) t
      · rw [if_neg h3]
        rw [List.cons_append, List.cons_append, List.cons_append, List.cons_append,
          List.nil_append]
        rw [neutralScan_cons_other _ (by omega) (by omega)]
        rw [neutralScan_cons_other _ (by omega) (by omega)]
        rw [neutralScan_cons_other _ (by omega) (by omega)]
        exact neutralScan_cons_other _ (by omega) (by omega) t

/-- Scanning the escaped form of any single rune inside a string neither
opens an unescaped quote nor leaves a pending escape. -/
lemma neutralScan_escape (c : Nat) (t : List Nat) :
    neutralScan false (escapeRune c ++ t) = neutralScan false t := by
  unfold escapeRune
  by_cases h34 : c = 34
  · rw [if_pos h34]
    exact neutralScan_escPair 34 t
  rw [if_neg h34]
  by_cases h92 : c = 92
  · rw [if_pos h92]
    exact neutralScan_escPair 92 t
  rw [if_neg h92]
  by_cases h10 : c = 10
  · rw [if_pos h10]
    exact neutralScan_escPair 110 t
  rw [if_neg h10]
  by_cases h13 : c = 13
  · rw [if_pos h13]
    exact neutralScan_escPair 114 t
  rw [if_neg h13]
  by_cases h9 : c = 9
  · rw [if_pos h9]
    exact neutralScan_escPair 116 t
  rw [if_neg h9]
  by_cases hctl : c < 32
  · rw [if_pos hctl]
    rw [List.cons_append, List.cons_append, List.cons_append, List.cons_append,
      List.cons_append, List.cons_append, List.nil_append]
    rw [neutralScan_escPair]
    rw [neutralScan_cons_other 48 (by omega) (by omega)]
    rw [neutralScan_cons_other 48 (by omega) (by omega)]
    rw [neutralScan_cons_other _ (hexDigitChar_ne _).1 (hexDigitChar_ne _).2]
    exact neutralScan_cons_other _ (hexDigitChar_ne _).1 (hexDigitChar_ne _).2 t
  rw [if_neg hctl]
  by_cases hhtml : c = 60 ∨ c = 62 ∨ c = 38
  · rw [if_pos hhtml]
    rw [List.cons_append, List.cons_append, List.cons_append, List.cons_append,
      List.cons_append, List.cons_append, List.nil_append]
    rw [neutralScan_escPair]
    rw [neutralScan_cons_other 48 (by omega) (by omega)]
    rw [neutralScan_cons_other 48 (by omega) (by omega)]
    rw [neutralScan_cons_other _ (hexDigitChar_ne _).1 (hexDigitChar_ne _).2]
    exact neutralScan_cons_other _ (hexDigitChar_ne _).1 (hexDigitChar_ne _).2 t
  rw [if_neg hhtml]
  by_cases h2028 : c = 8232
  · rw [if_pos h2028]
    rw [List.cons_append, List.cons_append, List.cons_append, List.cons_append,
      List.cons_append, List.cons_append, List.nil_append]
    rw [neutralScan_escPair]
    rw [neutralScan_cons_other 50 (by omega) (by omega)]
    rw [neutralScan_cons_other 48 (by omega) (by omega)]
    rw [neutralScan_cons_other 50 (by omega) (by omega)]
    exact neutralScan_cons_other 56 (by omega) (by omega) t
  rw [if_neg h2028]
  by_cases h2029 : c = 8233
  · rw [if_pos h2029]
    rw [List.cons_append, List.cons_append, List.cons_append, List.cons_append,
      List.cons_append, List.cons_append, List.nil_append]
    rw [neutralScan_escPair]
    rw [neutralScan_cons_other 50 (by omega) (by omega)]
    rw [neutralScan_cons_other 48 (by omega) (by omega)]
    rw [neutralScan_cons_other 50 (by omega) (by omega)]
    exact neutralScan_cons_other 57 (by omega) (by omega) t
  rw [if_neg h2029]
  exact neutralScan_utf8 c h92 h34 t

/-- Scanning the escaped form of a whole key is escape-neutral. -/
lemma neutralScan_encBody (rs : List Nat) (t : List Nat) :
    neutralScan false (rs.flatMap escapeRune ++ t) = neutralScan false t := by
  induction rs with
  | nil => simp
  | cons c rs ih =>
    rw [List.flatMap_cons, List.append_assoc, neutralScan_escape]
    exact ih

/-- A recognized head stays recognized under extension of the scanned
list. -/
lemma hasPfx_append (pat l r : List Nat) (h : hasPfx pat l = true) :
    hasPfx pat (l ++ r) = true := by
  induction pat generalizing l with
  | nil => simp [hasPfx]
  | cons a pa ih =>
    cases l with
    | nil => simp [hasPfx] at h
    | cons b lb =>
      simp only [List.cons_append, hasPfx] at h ⊢
      by_cases hab : a = b
      · rw [if_pos hab] at h ⊢
        exact ih lb h
      · rw [if_neg hab] at h
        cases h

/-- After a literal is classified not-a-marker, an escape-neutral body
followed by the closing quote returns the tokenizer to `out`. -/
lemma plainRun_live (body : List Nat) (esc : Bool)
    (hn : neutralScan esc body = some false) :
    plainRun (.live esc) (body ++ [34]) = some .out := by
  induction body generalizing esc with
  | nil =>
    simp only [neutralScan, Option.some.injEq] at hn
    subst hn
    simp [plainRun, plainStep]
  | cons b t ih =>
    cases esc with
    | true =>
      rw [show neutralScan true (b :: t) = neutralScan false t from rfl] at hn
      rw [List.cons_append]
      simp only [plainRun, plainStep, Bool.true_eq_false, false_and, if_false]
      exact ih false hn
    | false =>
      by_cases hb92 : b = 92
      · subst hb92
        rw [show neutralScan false (92 :: t) = neutralScan true t from by
          simp [neutralScan]] at hn
        rw [List.cons_append]
        simp only [plainRun, plainStep]
        norm_num
        exact ih true hn
      · by_cases hb34 : b = 34
        · subst hb34
          rw [show neutralScan false (34 :: t) = none from by simp [neutralScan]] at hn
          cases hn
        · rw [neutralScan_cons_other b hb92 hb34] at hn
          rw [List.cons_append]
          simp only [plainRun, plainStep, hb34, and_false, if_false, hb92]
          norm_num [hb92, hb34]
          exact ih false hn

/-- A still-undetermined literal whose whole text does not start with the
escaped marker head, with an escape-neutral remaining body, closes back to
`out` at its closing quote. -/
lemma plainRun_undet (body buf : List Nat) (esc : Bool)
    (hlen : buf.length < streamJSONPrefixBytes.length)
    (hn : neutralScan esc body = some false)
    (hpf : ¬hasPfx streamJSONPrefixBytes (buf ++ body ++ [34]) = true) :
    plainRun (.undet buf esc) (body ++ [34]) = some .out := by
  induction body generalizing buf esc with
  | nil =>
    simp only [neutralScan, Option.some.injEq] at hn
    subst hn
    simp only [List.append_nil] at hpf
    simp only [List.nil_append, plainRun, plainStep]
    by_cases h7 : streamJSONPrefixBytes.length ≤ (buf ++ [34]).length
    · rw [if_pos h7, if_neg hpf]
      norm_num [plainRun]
    · rw [if_neg h7]
      norm_num [plainRun]
  | cons b t ih =>
    have hext : buf ++ (b :: t) ++ [34] = (buf ++ [b]) ++ (t ++ [34]) := by
      simp [List.append_assoc]
    rw [hext] at hpf
    have hpf1 : ¬hasPfx streamJSONPrefixBytes (buf ++ [b]) = true := by
      intro hx
      exact hpf (hasPfx_append _ _ _ hx)
    have hpf2 : ¬hasPfx streamJSONPrefixBytes ((buf ++ [b]) ++ t ++ [34]) = true := by
      rw [List.append_assoc (buf ++ [b]) t [34]]
      exact hpf
    rw [List.cons_append]
    simp only [plainRun, plainStep]
    by_cases h7 : streamJSONPrefixBytes.length ≤ (buf ++ [b]).length
    · rw [if_pos h7, if_neg hpf1]
      cases esc with
      | true =>
        rw [show neutralScan true (b :: t) = neutralScan false t from rfl] at hn
        simp only [Bool.true_eq_false, false_and, if_false]
        exact plainRun_live t false hn
      | false =>
        by_cases hb34 : b = 34
        · subst hb34
          rw [show neutralScan false (34 :: t) = none from by simp [neutralScan]] at hn
          cases hn
        · by_cases hb92 : b = 92
          · subst hb92
            rw [show neutralScan false (92 :: t) = neutralScan true t from by
              simp [neutralScan]] at hn
            simp only [hb34, and_false, if_false]
            norm_num
            exact plainRun_live t true hn
          · rw [neutralScan_cons_other b hb92 hb34] at hn
            simp only [hb34, and_false, if_false]
            norm_num [hb92, hb34]
            exact plainRun_live t false hn
    · rw [if_neg h7]
      have hlen1 : (buf ++ [b]).length < streamJSONPrefixBytes.length := by
        simp only [List.length_append, List.length_singleton] at h7 ⊢
        omega
      cases esc with
      | true =>
        rw [show neutralScan true (b :: t) = neutralScan false t from rfl] at hn
        simpa using ih (buf ++ [b]) false hlen1 hn hpf2
      | false =>
        by_cases hb34 : b = 34
        · subst hb34
          rw [show neutralScan false (34 :: t) = none from by simp [neutralScan]] at hn
          cases hn
        · by_cases hb92 : b = 92
          · subst hb92
            rw [show neutralScan false (92 :: t) = neutralScan true t from by
              simp [neutralScan]] at hn
            have hres := ih (buf ++ [92]) true hlen1 hn hpf2
            simp only [hb34, and_false, if_false]
            norm_num
            exact hres
          · rw [neutralScan_cons_other b hb92 hb34] at hn
            have hres := ih (buf ++ [b]) false hlen1 hn hpf2
            simp only [hb34, and_false, if_false]
            norm_num [hb92, hb34]
            exact hres

/-- C5: The interceptor keeps an escape flag under which a backslash
escapes exactly the next byte and only an unescaped quote closes a string:
for every string content `rs` — escaped quotes and backslashes included —
whose encoded literal does not begin with the escaped reserved head, the
whole literal reaches the sink unchanged, no error is raised, and the
scanner has left the string (no premature termination, no marker
classification). -/
theorem escaped_string_passthrough (rs : List Nat) (m : Registry) (u : UW)
    (hpfx : hasPfx streamJSONPrefixBytes (goJsonEncodeString rs) = false)
    (hu : u.failAfter = none) :
    (writeGo (initWriter m) u (goJsonEncodeString rs)).sink.written
      = u.written ++ goJsonEncodeString rs
    ∧ (writeGo (initWriter m) u (goJsonEncodeString rs)).err = none
    ∧ (writeGo (initWriter m) u (goJsonEncodeString rs)).wtr.onString = false := by
  have hshape : goJsonEncodeString rs = 34 :: (rs.flatMap escapeRune ++ [34]) := by
    simp [goJsonEncodeString]
  have hsp : plainRun PMode.out (goJsonEncodeString rs) = some PMode.out := by
    rw [hshape]
    simp only [plainRun, plainStep]
    norm_num
    apply plainRun_undet
    · decide
    · simpa using neutralScan_encBody rs []
    · intro hx
      have hsame : ([34] ++ rs.flatMap escapeRune ++ [34] : List Nat)
          = goJsonEncodeString rs := by simp [goJsonEncodeString]
      rw [hsame, hpfx] at hx
      cases hx
  have hu2 : u = ⟨u.written, none⟩ := by
    conv_lhs => rw [show u = ⟨u.written, u.failAfter⟩ from rfl]
    rw [hu]
  rw [hu2]
  obtain ⟨i1, e1, _, er1, _⟩ :=
    plain_sim (goJsonEncodeString rs) .out .out (initWriter m) u.written hsp rfl
  exact ⟨by simpa [pending] using e1, er1, i1⟩

/-- Witness for C5: content `a"b\c` — its literal on the wire is
`"a\"b\\c"` — passes through byte for byte. -/
theorem escaped_string_passthrough_witness :
    goJsonEncodeString [97, 34, 98, 92, 99] = [34, 97, 92, 34, 98, 92, 92, 99, 34]
    ∧ hasPfx streamJSONPrefixBytes (goJsonEncodeString [97, 34, 98, 92, 99]) = false
    ∧ (writeGo (initWriter []) ⟨[], none⟩
        (goJsonEncodeString [97, 34, 98, 92, 99])).sink.written
      = [] ++ goJsonEncodeString [97, 34, 98, 92, 99]
    ∧ (writeGo (initWriter []) ⟨[], none⟩
        (goJsonEncodeString [97, 34, 98, 92, 99])).err = none
    ∧ (writeGo (initWriter []) ⟨[], none⟩
        (goJsonEncodeString [97, 34, 98, 92, 99])).wtr.onString = false := by
  refine ⟨by decide, by decide, ?_, ?_, ?_⟩
  · exact (escaped_string_passthrough [97, 34, 98, 92, 99] [] ⟨[], none⟩ (by decide) rfl).1
  · exact (escaped_string_passthrough [97, 34, 98, 92, 99] [] ⟨[], none⟩ (by decide) rfl).2.1
  · exact (escaped_string_passthrough [97, 34, 98, 92, 99] [] ⟨[], none⟩ (by decide) rfl).2.2

/-- An ordinary byte (no quote, no backslash, not a control byte) decodes
to itself. -/
lemma decodeBody_other (b : Nat) (hb : 32 ≤ b) (h34 : b ≠ 34) (h92 : b ≠ 92)
    (t : List Nat) :
    decodeBody (b :: t) = (decodeBody t).map (fun x => b :: x) := by
  rw [decodeBody]
  rw [if_neg h34, if_neg h92, if_neg (by omega : ¬b < 32)]

/-- The raw UTF-8 bytes the encoder emits for an unescaped rune pass
through the decoder unchanged. -/
lemma decodeBody_utf8 (c : Nat) (hb : 32 ≤ c) (h34 : c ≠ 34) (h92 : c ≠ 92)
    (t : List Nat) :
    decodeBody (utf8encodeChar c ++ t)
      = (decodeBody t).map (fun x => utf8encodeChar c ++ x) := by
  by_cases h1 : c < 128
  · have hue : utf8encodeChar c = [c] := by
      unfold utf8encodeChar
      rw [if_pos h1]
    simp only [hue, List.cons_append, List.nil_append]
    rw [decodeBody_other c hb h34 h92]
  · by_cases h2 : c < 2048
    · have hue : utf8encodeChar c = [192 + c / 64, 128 + c % 64] := by
        unfold utf8encodeChar
        rw [if_neg h1, if_pos h2]
      simp only [hue, List.cons_append, List.nil_append]
      rw [decodeBody_other _ (by omega) (by omega) (by omega)]
      rw [decodeBody_other _ (by omega) (by omega) (by omega)]
      cases decodeBody t <;> simp
    · by_cases h3 : c < 65536
      · have hue : utf8encodeChar c
            = [224 + c / 4096, 128 + (c / 64) % 64, 128 + c % 64] := by
          unfold utf8encodeChar
          rw [if_neg h1, if_neg h2, if_pos h3]
        simp only [hue, List.cons_append, List.nil_append]
        rw [decodeBody_other _ (by omega) (by omega) (by omega)]
        rw [decodeBody_other _ (by omega) (by omega) (by omega)]
        rw [decodeBody_other _ (by omega) (by omega) (by omega)]
        cases decodeBody t <;> simp
      · have hue : utf8encodeChar c
            = [240 + c / 262144, 128 + (c / 4096) % 64, 128 + (c / 64) % 64,
               128 + c % 64] := by
          unfold utf8encodeChar
          rw [if_neg h1, if_neg h2, if_neg h3]
        simp only [hue, List.cons_append, List.nil_append]
        rw [decodeBody_other _ (by omega) (by omega) (by omega)]
        rw [decodeBody_other _ (by omega) (by omega) (by omega)]
        rw [decodeBody_other _ (by omega) (by omega) (by omega)]
        rw [decodeBody_other _ (by omega) (by omega) (by omega)]
        cases decodeBody t <;> simp

/-- The short backslash escapes decode to their bytes. -/
lemma decodeBody_escPair (e r : Nat) (t : List Nat)
    (he : e = 34 ∧ r = 34 ∨ e = 92 ∧ r = 92 ∨ e = 110 ∧ r = 10
      ∨ e = 114 ∧ r = 13 ∨ e = 116 ∧ r = 9) :
    decodeBody (92 :: e :: t) = (decodeBody t).map (fun x => r :: x) := by
  rcases he with ⟨he, hr⟩ | ⟨he, hr⟩ | ⟨he, hr⟩ | ⟨he, hr⟩ | ⟨he, hr⟩ <;>
    subst he <;> subst hr <;> (rw [decodeBody, decodeEsc]; norm_num)

/-- The decoder's hex digits invert the encoder's hex digit characters. -/
lemma hexDigit_hexDigitChar (d : Nat) (hd : d < 16) :
    hexDigit (hexDigitChar d) = some d := by
  revert hd
  revert d
  decide

/-- A six-byte escape of a byte below 256, as the encoder
emits for control and HTML-escaped characters, decodes back to that
byte's UTF-8 form. -/
lemma decodeBody_u00 (c : Nat) (hc : c < 256) (t : List Nat) :
    decodeBody (92 :: 117 :: 48 :: 48 :: hexDigitChar (c / 16)
        :: hexDigitChar (c % 16) :: t)
      = (decodeBody t).map (fun x => utf8encodeChar c ++ x) := by
  have e1 : hexDigit (hexDigitChar (c / 16)) = some (c / 16) :=
    hexDigit_hexDigitChar _ (by omega)
  have e2 : hexDigit (hexDigitChar (c % 16)) = some (c % 16) :=
    hexDigit_hexDigitChar _ (by omega)
  rw [decodeBody, decodeEsc]
  norm_num [decodeU]
  have h48 : hexDigit 48 = some 0 := by norm_num [hexDigit]
  rw [h48, e1, e2]
  have hev : ((0 * 16 + 0) * 16 + c / 16) * 16 + c % 16 = c := by omega
  simp only [hev]
  rw [if_pos (Or.inl (by omega : c < 55296))]

/-- The encoder's six-byte escape of U+2028 decodes back to it. -/
lemma decodeBody_u2028 (t : List Nat) :
    decodeBody (92 :: 117 :: 50 :: 48 :: 50 :: 56 :: t)
      = (decodeBody t).map (fun x => utf8encodeChar 8232 ++ x) := by
  rw [decodeBody, decodeEsc]
  norm_num [decodeU, hexDigit]

/-- The encoder's six-byte escape of U+2029 decodes back to it. -/
lemma decodeBody_u2029 (t : List Nat) :
    decodeBody (92 :: 117 :: 50 :: 48 :: 50 :: 57 :: t)
      = (decodeBody t).map (fun x => utf8encodeChar 8233 ++ x) := by
  rw [decodeBody, decodeEsc]
  norm_num [decodeU, hexDigit]

/-- Decoding inverts the encoder's escaping of one rune: decoding the
escape of `c` prepends exactly the UTF-8 bytes of `c`. -/
lemma decodeBody_escape (c : Nat) (t : List Nat) :
    decodeBody (escapeRune c ++ t)
      = (decodeBody t).map (fun x => utf8encodeChar c ++ x) := by
  by_cases h34 : c = 34
  · subst h34
    have he : escapeRune 34 = [92, 34] := by norm_num [escapeRune]
    rw [he, show ([92, 34] : List Nat) ++ t = 92 :: 34 :: t from rfl,
      decodeBody_escPair 34 34 t (by norm_num)]
    have hu : utf8encodeChar 34 = [34] := by norm_num [utf8encodeChar]
    simp [hu]
  by_cases h92 : c = 92
  · subst h92
    have he : escapeRune 92 = [92, 92] := by norm_num [escapeRune]
    rw [he, show ([92, 92] : List Nat) ++ t = 92 :: 92 :: t from rfl,
      decodeBody_escPair 92 92 t (by norm_num)]
    have hu : utf8encodeChar 92 = [92] := by norm_num [utf8encodeChar]
    simp [hu]
  by_cases h10 : c = 10
  · subst h10
    have he : escapeRune 10 = [92, 110] := by norm_num [escapeRune]
    rw [he, show ([92, 110] : List Nat) ++ t = 92 :: 110 :: t from rfl,
      decodeBody_escPair 110 10 t (by norm_num)]
    have hu : utf8encodeChar 10 = [10] := by norm_num [utf8encodeChar]
    simp [hu]
  by_cases h13 : c = 13
  · subst h13
    have he : escapeRune 13 = [92, 114] := by norm_num [escapeRune]
    rw [he, show ([92, 114] : List Nat) ++ t = 92 :: 114 :: t from rfl,
      decodeBody_escPair 114 13 t (by norm_num)]
    have hu : utf8encodeChar 13 = [13] := by norm_num [utf8encodeChar]
    simp [hu]
  by_cases h9 : c = 9
  · subst h9
    have he : escapeRune 9 = [92, 116] := by norm_num [escapeRune]
    rw [he, show ([92, 116] : List Nat) ++ t = 92 :: 116 :: t from rfl,
      decodeBody_escPair 116 9 t (by norm_num)]
    have hu : utf8encodeChar 9 = [9] := by norm_num [utf8encodeChar]
    simp [hu]
  by_cases hctl : c < 32
  · have he : escapeRune c
        = [92, 117, 48, 48, hexDigitChar (c / 16), hexDigitChar (c % 16)] := by
      unfold escapeRune
      rw [if_neg h34, if_neg h92, if_neg h10, if_neg h13, if_neg h9, if_pos hctl]
    rw [he]
    exact decodeBody_u00 c (by omega) t
  by_cases hhtml : c = 60 ∨ c = 62 ∨ c = 38
  · have he : escapeRune c
        = [92, 117, 48, 48, hexDigitChar (c / 16), hexDigitChar (c % 16)] := by
      unfold escapeRune
      rw [if_neg h34, if_neg h92, if_neg h10, if_neg h13, if_neg h9, if_neg hctl,
        if_pos hhtml]
    rw [he]
    refine decodeBody_u00 c (by rcases hhtml with h | h | h <;> omega) t
  by_cases h2028 : c = 8232
  · subst h2028
    have he : escapeRune 8232 = [92, 117, 50, 48, 50, 56] := by
      norm_num [escapeRune]
    rw [he]
    exact decodeBody_u2028 t
  by_cases h2029 : c = 8233
  · subst h2029
    have he : escapeRune 8233 = [92, 117, 50, 48, 50, 57] := by
      norm_num [escapeRune]
    rw [he]
    exact decodeBody_u2029 t
  · have he : escapeRune c = utf8encodeChar c := by
      unfold escapeRune
      rw [if_neg h34, if_neg h92, if_neg h10, if_neg h13, if_neg h9, if_neg hctl,
        if_neg hhtml, if_neg h2028, if_neg h2029]
    rw [he]
    exact decodeBody_utf8 c (by omega) h34 h92 t

/-- Decoding inverts the encoder's escaping of a whole rune list. -/
lemma decodeBody_encAll (rs t : List Nat) :
    decodeBody (rs.flatMap escapeRune ++ t)
      = (decodeBody t).map (fun x => utf8Bytes rs ++ x) := by
  induction rs with
  | nil =>
    cases h : decodeBody t <;> simp [utf8Bytes, h]
  | cons c rs ih =>
    rw [List.flatMap_cons, List.append_assoc, decodeBody_escape, ih]
    cases h : decodeBody t <;> simp [utf8Bytes, h, List.append_assoc]

/-- The marker codec round trip at the byte level: `json.Unmarshal` applied
to `json.Marshal` of a string recovers exactly that string's bytes. -/
lemma json_roundtrip (rs : List Nat) :
    jsonDecodeString (goJsonEncodeString rs) = some (utf8Bytes rs) := by
  have hshape : goJsonEncodeString rs = 34 :: (rs.flatMap escapeRune ++ [34]) := by
    simp [goJsonEncodeString]
  rw [hshape]
  rw [show jsonDecodeString (34 :: (rs.flatMap escapeRune ++ [34]))
      = decodeBody (rs.flatMap escapeRune ++ [34]) from by simp [jsonDecodeString]]
  rw [decodeBody_encAll]
  rw [show decodeBody [34] = some [] from by rw [decodeBody]; norm_num]
  simp

/-- C6: For every key (runes of a Go string — quotes, backslashes and the
empty key included), `Value.MarshalJSON` serializes the placeholder as one
JSON string literal whose unescaped content is exactly `streamPrefix`
followed by the key; decoding that buffered literal the way the
interceptor does and stripping the prefix recovers exactly the key's
bytes, whose registry lookup then finds the registered entry. -/
theorem marker_codec_roundtrip (key : List Nat) (m : Registry) (v : ValueT)
    (hkey : ∀ c ∈ key, ValidRune c)
    (hm : lookupKey m (utf8Bytes key) = some v) :
    jsonDecodeString (marshalValue key) = some (streamPrefixBytes ++ utf8Bytes key)
    ∧ (streamPrefixBytes ++ utf8Bytes key).drop streamPrefixBytes.length
        = utf8Bytes key
    ∧ lookupKey m ((streamPrefixBytes ++ utf8Bytes key).drop
        streamPrefixBytes.length) = some v := by
  have h1 : jsonDecodeString (marshalValue key)
      = some (utf8Bytes (92 :: 127887 :: key)) := json_roundtrip (92 :: 127887 :: key)
  have h2 : utf8Bytes (92 :: 127887 :: key) = streamPrefixBytes ++ utf8Bytes key := by
    simp only [utf8Bytes, List.flatMap_cons, streamPrefixBytes]
    norm_num [utf8encodeChar]
  have h3 : (streamPrefixBytes ++ utf8Bytes key).drop streamPrefixBytes.length
      = utf8Bytes key := by
    simp [streamPrefixBytes]
  refine ⟨h2 ▸ h1, h3, ?_⟩
  rw [h3]
  exact hm

/-- Witness for C6 at the key consisting of a quote and a backslash: its
wire literal is explicitly computed and the round trip recovers the key,
found in a one-entry registry. -/
theorem marker_codec_roundtrip_witness :
    marshalValue [34, 92] = [34, 92, 92, 240, 159, 142, 143, 92, 34, 92, 92, 34]
    ∧ (∀ c ∈ ([34, 92] : List Nat), ValidRune c)
    ∧ jsonDecodeString (marshalValue [34, 92])
        = some (streamPrefixBytes ++ utf8Bytes [34, 92])
    ∧ (streamPrefixBytes ++ utf8Bytes [34, 92]).drop streamPrefixBytes.length
        = utf8Bytes [34, 92]
    ∧ lookupKey [([34, 92], ⟨[34, 92], .valueFunc fun u => (u, none)⟩)]
        ((streamPrefixBytes ++ utf8Bytes [34, 92]).drop streamPrefixBytes.length)
        = some ⟨[34, 92], .valueFunc fun u => (u, none)⟩ := by
  refine ⟨by decide, by decide, ?_, ?_, ?_⟩
  · exact (marker_codec_roundtrip [34, 92]
      [([34, 92], ⟨[34, 92], .valueFunc fun u => (u, none)⟩)]
      ⟨[34, 92], .valueFunc fun u => (u, none)⟩ (by decide) rfl).1
  · exact (marker_codec_roundtrip [34, 92]
      [([34, 92], ⟨[34, 92], .valueFunc fun u => (u, none)⟩)]
      ⟨[34, 92], .valueFunc fun u => (u, none)⟩ (by decide) rfl).2.1
  · exact (marker_codec_roundtrip [34, 92]
      [([34, 92], ⟨[34, 92], .valueFunc fun u => (u, none)⟩)]
      ⟨[34, 92], .valueFunc fun u => (u, none)⟩ (by decide) rfl).2.2

/-- In the marker state a non-closing byte is buffered silently: nothing
is written, no count, no error. -/
lemma writeByte_value (mw : Registry) (ef : Bool) (buf : List Nat) (u : UW) (b : Nat)
    (hno : ef = true ∨ b ≠ 34) :
    writeByte ⟨mw, true, ef, .value, buf⟩ u b
      = ⟨⟨mw, true, (if ef then false else if b = 92 then true else false), .value,
          buf ++ [b]⟩, u, 0, none⟩ := by
  cases ef with
  | true => simp [writeByte, escUpdate, finishString]
  | false =>
    have hb34 : b ≠ 34 := by
      rcases hno with h | h
      · cases h
      · exact h
    by_cases hb92 : b = 92
    · subst hb92
      simp [writeByte, escUpdate, finishString]
    · simp [writeByte, escUpdate, finishString, hb92, hb34]

/-- In the marker state an escape-neutral byte run is buffered silently in
full. -/
lemma writeGo_value_neutral (bs : List Nat) (mw : Registry) (ef e1 : Bool)
    (buf : List Nat) (u : UW) (hn : neutralScan ef bs = some e1) :
    writeGo ⟨mw, true, ef, .value, buf⟩ u bs
      = ⟨⟨mw, true, e1, .value, buf ++ bs⟩, u, 0, none⟩ := by
  induction bs generalizing ef buf with
  | nil =>
    simp only [neutralScan, Option.some.injEq] at hn
    subst hn
    simp [writeGo]
  | cons b t ih =>
    cases ef with
    | true =>
      rw [show neutralScan true (b :: t) = neutralScan false t from rfl] at hn
      simp only [writeGo]
      rw [writeByte_value mw true buf u b (Or.inl rfl)]
      simp only [if_true]
      rw [ih false (buf ++ [b]) hn]
      simp [List.append_assoc]
    | false =>
      by_cases hb92 : b = 92
      · subst hb92
        rw [show neutralScan false (92 :: t) = neutralScan true t from by
          simp [neutralScan]] at hn
        simp only [writeGo]
        rw [writeByte_value mw false buf u 92 (Or.inr (by omega))]
        norm_num
        rw [ih true (buf ++ [92]) hn]
        simp [List.append_assoc]
      · by_cases hb34 : b = 34
        · subst hb34
          rw [show neutralScan false (34 :: t) = none from by simp [neutralScan]] at hn
          cases hn
        · rw [neutralScan_cons_other b hb92 hb34] at hn
          simp only [writeGo]
          rw [writeByte_value mw false buf u b (Or.inr hb34)]
          norm_num [hb92]
          rw [ih false (buf ++ [b]) hn]
          simp [List.append_assoc]

/-- Processing the seven-byte escaped marker head from outside a string
enters the marker state with the head buffered and nothing written. -/
lemma writeGo_markerHead (mw : Registry) (ef : Bool) (ss : StreamState)
    (sb : List Nat) (u : UW) (rest : List Nat) :
    writeGo ⟨mw, false, ef, ss, sb⟩ u
        (34 :: 92 :: 92 :: 240 :: 159 :: 142 :: 143 :: rest)
      = writeGo ⟨mw, true, false, .value, [34, 92, 92, 240, 159, 142, 143]⟩ u rest := by
  have s1 : writeByte ⟨mw, false, ef, ss, sb⟩ u 34
      = ⟨⟨mw, true, false, .undetermined, [34]⟩, u, 0, none⟩ := by
    simp [writeByte]
  have s2 : writeByte ⟨mw, true, false, .undetermined, [34]⟩ u 92
      = ⟨⟨mw, true, true, .undetermined, [34, 92]⟩, u, 0, none⟩ := by
    simp [writeByte, escUpdate, finishString, streamJSONPrefixBytes]
  have s3 : writeByte ⟨mw, true, true, .undetermined, [34, 92]⟩ u 92
      = ⟨⟨mw, true, false, .undetermined, [34, 92, 92]⟩, u, 0, none⟩ := by
    simp [writeByte, escUpdate, finishString, streamJSONPrefixBytes]
  have s4 : writeByte ⟨mw, true, false, .undetermined, [34, 92, 92]⟩ u 240
      = ⟨⟨mw, true, false, .undetermined, [34, 92, 92, 240]⟩, u, 0, none⟩ := by
    simp [writeByte, escUpdate, finishString, streamJSONPrefixBytes]
  have s5 : writeByte ⟨mw, true, false, .undetermined, [34, 92, 92, 240]⟩ u 159
      = ⟨⟨mw, true, false, .undetermined, [34, 92, 92, 240, 159]⟩, u, 0, none⟩ := by
    simp [writeByte, escUpdate, finishString, streamJSONPrefixBytes]
  have s6 : writeByte ⟨mw, true, false, .undetermined, [34, 92, 92, 240, 159]⟩ u 142
      = ⟨⟨mw, true, false, .undetermined, [34, 92, 92, 240, 159, 142]⟩, u, 0, none⟩ := by
    simp [writeByte, escUpdate, finishString, streamJSONPrefixBytes]
  have s7 : writeByte ⟨mw, true, false, .undetermined, [34, 92, 92, 240, 159, 142]⟩ u 143
      = ⟨⟨mw, true, false, .value, [34, 92, 92, 240, 159, 142, 143]⟩, u, 0, none⟩ := by
    simp [writeByte, escUpdate, finishString, streamJSONPrefixBytes, hasPfx]
  simp only [writeGo, s1, s2, s3, s4, s5, s6, s7]
  simp

/-- The closing quote of a marker-classified literal decodes the buffer,
strips the prefix and dispatches `streamValue`. -/
lemma writeGo_valueClose (mw : Registry) (buf : List Nat) (u : UW) :
    writeGo ⟨mw, true, false, .value, buf⟩ u [34]
      = (match jsonDecodeString (buf ++ [34]) with
         | none => ⟨⟨mw, false, false, .value, buf ++ [34]⟩, u, 0, some .decodeFail⟩
         | some s =>
           ⟨⟨mw, false, false, .value, buf ++ [34]⟩,
            (streamValue mw u (s.drop streamPrefixBytes.length)).1, 0,
            (streamValue mw u (s.drop streamPrefixBytes.length)).2⟩) := by
  cases hd : jsonDecodeString (buf ++ [34]) with
  | none => simp [writeGo, writeByte, escUpdate, finishString, hd]
  | some s =>
    cases hsv : (streamValue mw u (s.drop streamPrefixBytes.length)).2 with
    | none => simp [writeGo, writeByte, escUpdate, finishString, hd, hsv]
    | some e => simp [writeGo, writeByte, escUpdate, finishString, hd, hsv]

/-- The wire form of a marker: quote, escaped backslash, the raw flag
rune, then the escaped key and the closing quote. -/
lemma marshalValue_shape (key : List Nat) :
    marshalValue key
      = 34 :: 92 :: 92 :: 240 :: 159 :: 142 :: 143
          :: (key.flatMap escapeRune ++ [34]) := by
  have h92 : escapeRune 92 = [92, 92] := by norm_num [escapeRune]
  have hflag : escapeRune 127887 = [240, 159, 142, 143] := by
    norm_num [escapeRune, utf8encodeChar]
  simp [marshalValue, goJsonEncodeString, h92, hflag]

/-- Processing a complete marker literal from outside a string writes
nothing of the literal itself and dispatches `streamValue` on exactly the
registered key's bytes. -/
lemma writeGo_marker (key : List Nat) (mw : Registry) (ef : Bool)
    (ss : StreamState) (sb : List Nat) (u : UW) :
    writeGo ⟨mw, false, ef, ss, sb⟩ u (marshalValue key)
      = ⟨⟨mw, false, false, .value, marshalValue key⟩,
         (streamValue mw u (utf8Bytes key)).1, 0,
         (streamValue mw u (utf8Bytes key)).2⟩ := by
  rw [marshalValue_shape, writeGo_markerHead]
  rw [show (key.flatMap escapeRune ++ [34])
      = key.flatMap escapeRune ++ [34] from rfl]
  rw [writeGo_append]
  rw [writeGo_value_neutral (key.flatMap escapeRune) mw false false
    [34, 92, 92, 240, 159, 142, 143] u (by simpa using neutralScan_encBody key [])]
  simp only []
  rw [writeGo_valueClose]
  have hlit : ([34, 92, 92, 240, 159, 142, 143] ++ key.flatMap escapeRune) ++ [34]
      = goJsonEncodeString (92 :: 127887 :: key) := by
    have h92 : escapeRune 92 = [92, 92] := by norm_num [escapeRune]
    have hflag : escapeRune 127887 = [240, 159, 142, 143] := by
      norm_num [escapeRune, utf8encodeChar]
    simp [goJsonEncodeString, h92, hflag]
  have hdec : jsonDecodeString
      (([34, 92, 92, 240, 159, 142, 143] ++ key.flatMap escapeRune) ++ [34])
      = some (streamPrefixBytes ++ utf8Bytes key) := by
    rw [hlit, json_roundtrip]
    have h2 : utf8Bytes (92 :: 127887 :: key) = streamPrefixBytes ++ utf8Bytes key := by
      simp only [utf8Bytes, List.flatMap_cons, streamPrefixBytes]
      norm_num [utf8encodeChar]
    rw [h2]
  rw [hdec]
  have hdrop : (streamPrefixBytes ++ utf8Bytes key).drop streamPrefixBytes.length
      = utf8Bytes key := by
    simp [streamPrefixBytes]
  simp only [hdrop]
  have hbuf : ([34, 92, 92, 240, 159, 142, 143] ++ key.flatMap escapeRune) ++ [34]
      = 34 :: 92 :: 92 :: 240 :: 159 :: 142 :: 143 :: (key.flatMap escapeRune ++ [34]) := by
    simp
  rw [hbuf]

/-- C1: For a registered `(key, ValueFunc)` whose producer appends exactly
the bytes `v` to the sink, an input consisting of marker-free text, the
marker string literal for `key`, and marker-free text comes out as the
input with the entire literal (opening quote through closing quote)
replaced by exactly `v` — no added delimiters, quotes or separators — and
no error. -/
theorem marker_value_substitution
    (pre post key v kb : List Nat) (m : Registry) (f : UW → UW × Option WErr) (u : UW)
    (hm : lookupKey m (utf8Bytes key) = some ⟨kb, .valueFunc f⟩)
    (hf : ∀ x : UW, f x = (⟨x.written ++ v, x.failAfter⟩, none))
    (hpre : ScanPlain pre) (hpost : ScanPlain post)
    (hu : u.failAfter = none) :
    (writeGo (initWriter m) u (pre ++ (marshalValue key ++ post))).sink.written
        = u.written ++ pre ++ v ++ post
    ∧ (writeGo (initWriter m) u (pre ++ (marshalValue key ++ post))).err = none := by
  have hu2 : u = ⟨u.written, none⟩ := by
    conv_lhs => rw [show u = ⟨u.written, u.failAfter⟩ from rfl]
    rw [hu]
  rw [hu2]
  obtain ⟨i1, e1, f1, er1, m1⟩ :=
    plain_sim pre .out .out (initWriter m) u.written hpre rfl
  rw [writeGo_append]
  cases hW : writeGo (initWriter m) ⟨u.written, none⟩ pre with
  | mk w1 u1 n1 c1 =>
    rw [hW] at i1 e1 f1 er1 m1
    simp only at e1 f1 er1 m1
    subst er1
    obtain ⟨mw1, os1, ef1, ss1, sb1⟩ := w1
    have hos1 : os1 = false := i1
    subst hos1
    have hm1 : mw1 = m := by simpa [initWriter] using m1
    have hu1 : u1 = ⟨u1.written, none⟩ := by
      conv_lhs => rw [show u1 = ⟨u1.written, u1.failAfter⟩ from rfl]
      rw [f1]
    have he1 : u1.written = u.written ++ pre := by
      simpa [pending] using e1
    simp only []
    rw [writeGo_append, writeGo_marker, hm1]
    have hsv : streamValue m u1 (utf8Bytes key) = (⟨u1.written ++ v, none⟩, none) := by
      unfold streamValue
      rw [hm]
      simp only []
      rw [hf u1]
      rw [hu1]
    rw [hsv]
    simp only []
    obtain ⟨i3, e3, f3, er3, m3⟩ :=
      plain_sim post .out .out ⟨m, false, false, .value, marshalValue key⟩
        (u1.written ++ v) hpost rfl
    cases hW3 : writeGo ⟨m, false, false, .value, marshalValue key⟩
        ⟨u1.written ++ v, none⟩ post with
    | mk w3 u3 n3 c3 =>
      rw [hW3] at i3 e3 f3 er3 m3
      simp only at e3 er3
      constructor
      · simp only []
        have hw3 : u3.written = (u1.written ++ v) ++ post := by
          simpa [pending] using e3
        rw [hw3, he1]
      · simp only []
        exact er3

/-- Witness for C1: input `{` + marker literal for key `k` + `}` with a
producer writing `[1]` yields exactly `{[1]}`. -/
theorem marker_value_substitution_witness :
    (writeGo (initWriter [([107], ⟨[107], .valueFunc fun x =>
          (⟨x.written ++ [91, 49, 93], x.failAfter⟩, none)⟩)])
        ⟨[], none⟩ ([123] ++ (marshalValue [107] ++ [125]))).sink.written
      = [] ++ [123] ++ [91, 49, 93] ++ [125]
    ∧ (writeGo (initWriter [([107], ⟨[107], .valueFunc fun x =>
          (⟨x.written ++ [91, 49, 93], x.failAfter⟩, none)⟩)])
        ⟨[], none⟩ ([123] ++ (marshalValue [107] ++ [125]))).err = none := by
  exact marker_value_substitution [123] [125] [107] [91, 49, 93] [107]
    [([107], ⟨[107], .valueFunc fun x => (⟨x.written ++ [91, 49, 93], x.failAfter⟩, none)⟩)]
    (fun x => (⟨x.written ++ [91, 49, 93], x.failAfter⟩, none)) ⟨[], none⟩
    rfl (fun _ => rfl) (by decide) (by decide) rfl

/-- C7: An input whose string literal begins exactly with the escaped
reserved head but whose recovered key is not registered makes `Write` fail
with the unknown-key error (the Go `unexpected key: %s` error), and the
literal is not passed through to the sink. -/
theorem unknown_key_error
    (pre key : List Nat) (m : Registry) (u : UW)
    (hm : lookupKey m (utf8Bytes key) = none)
    (hpre : ScanPlain pre) (hu : u.failAfter = none) :
    (writeGo (initWriter m) u (pre ++ marshalValue key)).err
        = some (.unknownKey (utf8Bytes key))
    ∧ (writeGo (initWriter m) u (pre ++ marshalValue key)).sink.written
        = u.written ++ pre := by
  have hu2 : u = ⟨u.written, none⟩ := by
    conv_lhs => rw [show u = ⟨u.written, u.failAfter⟩ from rfl]
    rw [hu]
  rw [hu2]
  obtain ⟨i1, e1, f1, er1, m1⟩ :=
    plain_sim pre .out .out (initWriter m) u.written hpre rfl
  rw [writeGo_append]
  cases hW : writeGo (initWriter m) ⟨u.written, none⟩ pre with
  | mk w1 u1 n1 c1 =>
    rw [hW] at i1 e1 f1 er1 m1
    simp only at e1 f1 er1 m1
    subst er1
    obtain ⟨mw1, os1, ef1, ss1, sb1⟩ := w1
    have hos1 : os1 = false := i1
    subst hos1
    have hm1 : mw1 = m := by simpa [initWriter] using m1
    have he1 : u1.written = u.written ++ pre := by
      simpa [pending] using e1
    simp only []
    rw [writeGo_marker, hm1]
    have hsv : streamValue m u1 (utf8Bytes key)
        = (u1, some (.unknownKey (utf8Bytes key))) := by
      unfold streamValue
      rw [hm]
    rw [hsv]
    exact ⟨rfl, he1⟩

/-- Witness for C7: the marker literal for the unregistered key `k` after
a `{` fails with the unknown-key error, the sink holding only `{`. -/
theorem unknown_key_error_witness :
    (writeGo (initWriter []) ⟨[], none⟩ ([123] ++ marshalValue [107])).err
        = some (.unknownKey (utf8Bytes [107]))
    ∧ (writeGo (initWriter []) ⟨[], none⟩ ([123] ++ marshalValue [107])).sink.written
        = [] ++ [123] := by
  exact unknown_key_error [123] [107] [] ⟨[], none⟩ rfl (by decide) rfl

/-- First `WriteElement` call on a reliable sink: no comma, the element's
bytes, flag set. -/
lemma writeElement_reliable_false (ws e : List Nat) :
    writeElement false ⟨ws, none⟩ e = (true, ⟨ws ++ e, none⟩, none) := by
  simp [writeElement, uwrite]

/-- Subsequent `WriteElement` calls write one comma before the element. -/
lemma writeElement_reliable_true (ws e : List Nat) :
    writeElement true ⟨ws, none⟩ e = (true, ⟨ws ++ 44 :: e, none⟩, none) := by
  simp [writeElement, uwrite]

/-- With the flag already set, emitting all elements writes a comma before
every one of them. -/
lemma emitAll_reliable_true (elems : List (List Nat)) (ws : List Nat) :
    emitAll elems true ⟨ws, none⟩
      = (true, ⟨ws ++ elems.flatMap (fun x => 44 :: x), none⟩, none) := by
  induction elems generalizing ws with
  | nil => simp [emitAll]
  | cons e t ih =>
    rw [emitAll, writeElement_reliable_true]
    simp only []
    rw [ih]
    simp [List.append_assoc]

/-- A fresh element writer emits the elements joined by single commas
(no brackets, no trailing separator). -/
lemma emitAll_reliable_false (elems : List (List Nat)) (ws : List Nat) :
    emitAll elems false ⟨ws, none⟩
      = (!elems.isEmpty, ⟨ws ++ joinComma elems, none⟩, none) := by
  cases elems with
  | nil => simp [emitAll, joinComma]
  | cons e t =>
    rw [emitAll, writeElement_reliable_false]
    simp only []
    rw [emitAll_reliable_true]
    simp [joinComma, List.append_assoc]

/-- C2: For a registered `(key, ArrayValueFunc)` that emits `elems` via
the element writer, the marker literal's position in the output is
replaced by `[`, the serializations of the elements joined by single
commas, then `]`; zero elements yield exactly `[]`.  The dispatcher —
not the emitter — writes the brackets: the emitter alone appends only the
comma-joined elements, with a comma before every element except the
first. -/
theorem marker_array_substitution
    (pre post key kb : List Nat) (elems : List (List Nat)) (m : Registry) (u : UW)
    (hm : lookupKey m (utf8Bytes key) = some ⟨kb, .arrayValueFunc (emitAll elems)⟩)
    (hpre : ScanPlain pre) (hpost : ScanPlain post)
    (hu : u.failAfter = none) :
    (writeGo (initWriter m) u (pre ++ (marshalValue key ++ post))).sink.written
        = u.written ++ pre ++ ([91] ++ joinComma elems ++ [93]) ++ post
    ∧ (writeGo (initWriter m) u (pre ++ (marshalValue key ++ post))).err = none
    ∧ joinComma [] = ([] : List Nat)
    ∧ (∀ ws : List Nat,
        (emitAll elems false ⟨ws, none⟩).2.1.written = ws ++ joinComma elems
        ∧ (emitAll elems false ⟨ws, none⟩).2.2 = none) := by
  have hu2 : u = ⟨u.written, none⟩ := by
    conv_lhs => rw [show u = ⟨u.written, u.failAfter⟩ from rfl]
    rw [hu]
  rw [hu2]
  obtain ⟨i1, e1, f1, er1, m1⟩ :=
    plain_sim pre .out .out (initWriter m) u.written hpre rfl
  rw [writeGo_append]
  cases hW : writeGo (initWriter m) ⟨u.written, none⟩ pre with
  | mk w1 u1 n1 c1 =>
    rw [hW] at i1 e1 f1 er1 m1
    simp only at e1 f1 er1 m1
    subst er1
    obtain ⟨mw1, os1, ef1, ss1, sb1⟩ := w1
    have hos1 : os1 = false := i1
    subst hos1
    have hm1 : mw1 = m := by simpa [initWriter] using m1
    have hu1 : u1 = ⟨u1.written, none⟩ := by
      conv_lhs => rw [show u1 = ⟨u1.written, u1.failAfter⟩ from rfl]
      rw [f1]
    have he1 : u1.written = u.written ++ pre := by
      simpa [pending] using e1
    simp only []
    rw [writeGo_append, writeGo_marker, hm1]
    have hsv : streamValue m u1 (utf8Bytes key)
        = (⟨u1.written ++ ([91] ++ joinComma elems ++ [93]), none⟩, none) := by
      conv_lhs => rw [hu1]
      unfold streamValue
      rw [hm]
      simp [uwrite, emitAll_reliable_false, List.append_assoc]
    rw [hsv]
    simp only []
    obtain ⟨i3, e3, f3, er3, m3⟩ :=
      plain_sim post .out .out ⟨m, false, false, .value, marshalValue key⟩
        (u1.written ++ ([91] ++ joinComma elems ++ [93])) hpost rfl
    cases hW3 : writeGo ⟨m, false, false, .value, marshalValue key⟩
        ⟨u1.written ++ ([91] ++ joinComma elems ++ [93]), none⟩ post with
    | mk w3 u3 n3 c3 =>
      rw [hW3] at i3 e3 f3 er3 m3
      simp only at e3 er3
      refine ⟨?_, er3, rfl, ?_⟩
      · simp only []
        have hw3 : u3.written
            = (u1.written ++ ([91] ++ joinComma elems ++ [93])) ++ post := by
          simpa [pending] using e3
        rw [hw3, he1]
      · intro ws
        rw [emitAll_reliable_false]
        exact ⟨rfl, rfl⟩

/-- Witness for C2: elements `1` and `2` around key `k` inside `{`/`}`
produce `{[1,2]}`; the emitter alone writes `1,2`. -/
theorem marker_array_substitution_witness :
    (writeGo (initWriter [([107], ⟨[107], .arrayValueFunc (emitAll [[49], [50]])⟩)])
        ⟨[], none⟩ ([123] ++ (marshalValue [107] ++ [125]))).sink.written
      = [] ++ [123] ++ ([91] ++ joinComma [[49], [50]] ++ [93]) ++ [125]
    ∧ (writeGo (initWriter [([107], ⟨[107], .arrayValueFunc (emitAll [[49], [50]])⟩)])
        ⟨[], none⟩ ([123] ++ (marshalValue [107] ++ [125]))).err = none
    ∧ joinComma ([] : List (List Nat)) = []
    ∧ (∀ ws : List Nat,
        (emitAll [[49], [50]] false ⟨ws, none⟩).2.1.written
            = ws ++ joinComma [[49], [50]]
        ∧ (emitAll [[49], [50]] false ⟨ws, none⟩).2.2 = none) := by
  exact marker_array_substitution [123] [125] [107] [107] [[49], [50]]
    [([107], ⟨[107], .arrayValueFunc (emitAll [[49], [50]])⟩)] ⟨[], none⟩
    rfl (by decide) (by decide) rfl

/-- Sink-content extension is reflexive. -/
lemma writtenExt_refl (a : List Nat) : WrittenExt a a := ⟨[], by simp⟩

/-- Sink-content extension is transitive. -/
lemma writtenExt_trans {a b c : List Nat} (h1 : WrittenExt a b) (h2 : WrittenExt b c) :
    WrittenExt a c := by
  obtain ⟨t1, rfl⟩ := h1
  obtain ⟨t2, rfl⟩ := h2
  exact ⟨t1 ++ t2, by simp⟩

/-- A sink write, failing or not, only appends to what was written. -/
lemma uwrite_ext (u : UW) (c : List Nat) :
    WrittenExt u.written (uwrite u c).u.written := by
  obtain ⟨ws, fa⟩ := u
  cases fa with
  | none => exact ⟨c, rfl⟩
  | some cap =>
    simp only [uwrite]
    split_ifs
    · exact ⟨c, rfl⟩
    · exact ⟨_, rfl⟩

/-- A successful registry lookup returns an entry of the registry. -/
lemma lookupKey_mem (m : Registry) (key : List Nat) (v : ValueT)
    (h : lookupKey m key = some v) : (key, v) ∈ m := by
  induction m with
  | nil => cases h
  | cons kv t ih =>
    obtain ⟨k0, v0⟩ := kv
    rw [lookupKey] at h
    by_cases hk : k0 = key
    · rw [if_pos hk] at h
      cases h
      subst hk
      exact List.mem_cons_self _ _
    · rw [if_neg hk] at h
      exact List.mem_cons_of_mem _ (ih h)

/-- Dispatch only appends to the sink (producers being append-only),
whether it succeeds or fails. -/
lemma streamValue_ext (m : Registry) (u : UW) (key : List Nat)
    (hm : RegMono m) :
    WrittenExt u.written (streamValue m u key).1.written := by
  unfold streamValue
  cases hl : lookupKey m key with
  | none => exact writtenExt_refl _
  | some v =>
    simp only []
    have hpm : ProdMono v.f := hm (key, v) (lookupKey_mem m key v hl)
    cases hvf : v.f with
    | valueFunc f =>
      rw [hvf] at hpm
      simp only []
      exact hpm u
    | arrayValueFunc f =>
      rw [hvf] at hpm
      simp only []
      split_ifs with h1
      · exact uwrite_ext u [91]
      all_goals
        (try cases he : (f false (uwrite u [91]).u).2.2) <;>
        (try simp only []) <;>
        first
          | exact writtenExt_trans (uwrite_ext u [91]) (hpm false (uwrite u [91]).u)
          | exact writtenExt_trans (uwrite_ext u [91])
              (writtenExt_trans (hpm false (uwrite u [91]).u)
                (uwrite_ext (f false (uwrite u [91]).u).2.1 [93]))

/-- The end-of-string step never changes the scan-state fields it was
called with. -/
lemma finishString_wtr (w : GoWriter) (u : UW) (dn : Nat) :
    (finishString w u dn).wtr = w := by
  unfold finishString
  split_ifs
  · rfl
  · rfl
  · cases jsonDecodeString w.stringBuf <;> rfl
  · rfl

/-- The end-of-string step only appends to the sink. -/
lemma finishString_ext (w : GoWriter) (u : UW) (dn : Nat) (hm : RegMono w.m) :
    WrittenExt u.written (finishString w u dn).sink.written := by
  unfold finishString
  split_ifs
  · exact writtenExt_refl _
  · exact uwrite_ext u w.stringBuf
  · cases hd : jsonDecodeString w.stringBuf with
    | none => exact writtenExt_refl _
    | some s =>
      simp only []
      exact streamValue_ext w.m u (s.drop streamPrefixBytes.length) hm
  · exact writtenExt_refl _

/-- Escape tracking does not touch the registry. -/
lemma escUpdate_m (w : GoWriter) (b : Nat) : (escUpdate w b).m = w.m := by
  unfold escUpdate
  split_ifs <;> rfl

/-- One scanner step never changes the registry. -/
lemma writeByte_m (w : GoWriter) (u : UW) (b : Nat) :
    (writeByte w u b).wtr.m = w.m := by
  unfold writeByte
  dsimp only
  split_ifs <;> simp [finishString_wtr, escUpdate_m]

/-- One scanner step only appends to the sink. -/
lemma writeByte_ext (w : GoWriter) (u : UW) (b : Nat) (hm : RegMono w.m) :
    WrittenExt u.written (writeByte w u b).sink.written := by
  have hm2 : RegMono (escUpdate w b).m := by rw [escUpdate_m]; exact hm
  unfold writeByte
  dsimp only
  split_ifs
  all_goals first
    | exact writtenExt_refl _
    | exact uwrite_ext u _
    | exact finishString_ext _ _ _ hm2
    | exact writtenExt_trans (uwrite_ext u _) (finishString_ext _ _ _ hm2)

/-- A whole `Write` call only appends to the sink. -/
lemma writeGo_ext (p : List Nat) (w : GoWriter) (u : UW) (hm : RegMono w.m) :
    WrittenExt u.written (writeGo w u p).sink.written := by
  induction p generalizing w u with
  | nil => exact writtenExt_refl _
  | cons b t ih =>
    simp only [writeGo]
    cases hb : (writeByte w u b).err with
    | some e =>
      simp only []
      exact writeByte_ext w u b hm
    | none =>
      simp only []
      have hm2 : RegMono (writeByte w u b).wtr.m := by
        rw [writeByte_m]
        exact hm
      exact writtenExt_trans (writeByte_ext w u b hm)
        (ih (writeByte w u b).wtr (writeByte w u b).sink hm2)

/-- C9: For every failure during scanning — a sink write error, an error
returned by a producer, or a failure to decode a buffered marker literal —
`Write` returns that error immediately: the remaining input has no effect
on the result (no retry, processing stops at the failing byte), and every
byte already written to the sink stays written (the sink only ever grows;
nothing is retracted).  Producers are assumed append-only, which every
callback writing through an `io.Writer` is. -/
theorem failure_propagation (w : GoWriter) (u : UW) (p : List Nat)
    (hmono : RegMono w.m) :
    WrittenExt u.written (writeGo w u p).sink.written
    ∧ ((writeGo w u p).err.isSome = true →
        ∀ q, writeGo w u (p ++ q) = writeGo w u p) := by
  refine ⟨writeGo_ext p w u hmono, fun herr q => ?_⟩
  rw [writeGo_append]
  cases hW : writeGo w u p with
  | mk w1 u1 n1 e1 =>
    cases e1 with
    | some e => rfl
    | none =>
      rw [hW] at herr
      simp at herr

/-- Witness for C9: a sink failing after one byte makes `Write` on `AB`
return the sink error with `A` still written, and appending further input
to the call leaves the result unchanged. -/
theorem failure_propagation_witness :
    (writeGo (initWriter []) ⟨[], some 1⟩ [65, 66]).err = some .sinkErr
    ∧ (writeGo (initWriter []) ⟨[], some 1⟩ [65, 66]).sink.written = [65]
    ∧ WrittenExt ([] : List Nat)
        (writeGo (initWriter []) ⟨[], some 1⟩ [65, 66]).sink.written
    ∧ writeGo (initWriter []) ⟨[], some 1⟩ ([65, 66] ++ [67])
        = writeGo (initWriter []) ⟨[], some 1⟩ [65, 66] := by
  refine ⟨by decide, by decide, ?_, ?_⟩
  · exact (failure_propagation (initWriter []) ⟨[], some 1⟩ [65, 66]
      (by intro kv hkv; cases hkv)).1
  · exact (failure_propagation (initWriter []) ⟨[], some 1⟩ [65, 66]
      (by intro kv hkv; cases hkv)).2 (by decide) [67]
